import Mathlib

/- Formal model of the Reddit topic scraper in
   scraper/reddit_public_scrape.py: hashtag and mention extraction,
   record normalisation (to_schema), retry and backoff (fetch_json),
   pagination (search_reddit), cross-query deduplication (the seen_ids
   loop of the main block) and the JSONL and CSV sinks, together with
   proofs of the behavioural properties claimed for them. -/

namespace SocialAnalytics

/-- ASCII word characters: the character class of the source regexes,
letters, digits and underscore under re.IGNORECASE. -/
def isWordChar (c : Char) : Bool := c.isAlpha || c.isDigit || c == '_'

/-- Model of Python str.lower on one character, restricted to ASCII. -/
def lowerChar (c : Char) : Char :=
  if 65 ≤ c.toNat ∧ c.toNat ≤ 90 then Char.ofNat (c.toNat + 32) else c

/-- Model of Python str.lower. -/
def lowerStr (s : String) : String := String.mk (s.data.map lowerChar)

/-- Longest leading run of word characters of a list together with the
rest: the greedy match of the one-or-more word-character group of the
regexes. -/
def takeRun : List Char → List Char × List Char
  | [] => ([], [])
  | c :: cs =>
    if isWordChar c then
      let p := takeRun cs
      (c :: p.1, p.2)
    else ([], c :: cs)

/-- Whether a list starts with a word character. -/
def headIsWord : List Char → Bool
  | [] => false
  | c :: _ => isWordChar c

/-- One pass of re.finditer with the pattern of HASHTAG_RE and MENTION_RE:
an occurrence of the marker preceded by start of string or a non-word
character and followed by one or more word characters.  The scan emits the
greedy word-character group of each match.  Advancing one character at a
time is equivalent to resuming after each match, because every character
of a matched span other than its first is either the marker or a word
character, and no match can start at such a character; the flag records
whether the current position is the start of the string, where the caret
alternative of the pattern can apply. -/
def scanAux (marker : Char) : Bool → List Char → List (List Char)
  | _, [] => []
  | atStart, c :: cs =>
    if atStart && (c == marker) && headIsWord cs then
      (takeRun cs).1 :: scanAux marker false cs
    else
      match cs with
      | [] => []
      | c2 :: cs2 =>
        if !isWordChar c && (c2 == marker) && headIsWord cs2 then
          (takeRun cs2).1 :: scanAux marker false (c2 :: cs2)
        else
          scanAux marker false (c2 :: cs2)

/-- Lexicographic order on lists of characters by code point, the order
Python uses to compare strings. -/
def lexLt : List Char → List Char → Bool
  | [], [] => false
  | [], _ :: _ => true
  | _ :: _, [] => false
  | a :: as, b :: bs => if a < b then true else if a = b then lexLt as bs else false

/-- Insertion into a strictly sorted list, skipping an element already
present: together with a fold this models the Python expression
sorted(set(...)). -/
def insertSorted (s : String) : List String → List String
  | [] => [s]
  | x :: xs =>
    if lexLt s.data x.data then s :: x :: xs
    else if s = x then x :: xs
    else x :: insertSorted s xs

/-- Model of sorted(set(l)). -/
def dedupSort (l : List String) : List String := l.foldr insertSorted []

/-- Model of extract_hashtags: the sorted set of the lower-cased groups of
all matches of HASHTAG_RE in the text, None read as the empty string by
the expression text or "". -/
def extract_hashtags (text : Option String) : List String :=
  dedupSort ((scanAux '#' true (text.getD "").data).map
    (fun g => String.mk (g.map lowerChar)))

/-- Model of extract_mentions: identical to extract_hashtags but anchored
on the at-sign. -/
def extract_mentions (text : Option String) : List String :=
  dedupSort ((scanAux '@' true (text.getD "").data).map
    (fun g => String.mk (g.map lowerChar)))

/-- Zero-padded decimal rendering of a natural number to a given width. -/
def padNum (width : Nat) (n : Nat) : String :=
  let s := toString n
  String.mk (List.replicate (width - s.length) '0') ++ s

/-- Model of iso_utc: the ISO-8601 UTC rendering of a POSIX timestamp,
with the +00:00 suffix replaced by Z as in the source.  Timestamps are
modelled as whole seconds; the date is computed with the standard
civil-from-days conversion. -/
def iso_utc (ts : Int) : String :=
  let days := ts.fdiv 86400
  let secs := (ts - days * 86400).toNat
  let z := days + 719468
  let era := z.fdiv 146097
  let doe := (z - era * 146097).toNat
  let yoe := (doe - doe / 1460 + doe / 36524 - doe / 146096) / 365
  let doy := doe - (365 * yoe + yoe / 4 - yoe / 100)
  let mp := (5 * doy + 2) / 153
  let d := doy - (153 * mp + 2) / 5 + 1
  let m := if mp < 10 then mp + 3 else mp - 9
  let y := (yoe : Int) + era * 400 + (if m ≤ 2 then 1 else 0)
  padNum 4 y.toNat ++ "-" ++ padNum 2 m ++ "-" ++ padNum 2 d ++ "T" ++
    padNum 2 (secs / 3600) ++ ":" ++ padNum 2 (secs % 3600 / 60) ++ ":" ++
    padNum 2 (secs % 60) ++ "Z"

/-- A raw Reddit post payload: the fields of the child data dictionary
that to_schema reads.  A value of none models a field that is absent or
JSON null; numeric fields are modelled as integers. -/
structure RawPost where
  name : Option String := none
  id : Option String := none
  title : Option String := none
  selftext : Option String := none
  score : Option Int := none
  num_comments : Option Int := none
  created_utc : Option Int := none
  subreddit : Option String := none
  permalink : Option String := none
  url : Option String := none
deriving DecidableEq

/-- Python whitespace for str.strip, restricted to ASCII whitespace. -/
def isSpace (c : Char) : Bool :=
  c == ' ' || c == '\t' || c == '\n' || c == '\r' || c == '\x0b' || c == '\x0c'

/-- Model of Python str.strip with no arguments. -/
def pyStrip (s : String) : String :=
  String.mk ((s.data.dropWhile isSpace).reverse.dropWhile isSpace).reverse

/-- Truthiness of an optional string in Python: None and the empty string
are falsy. -/
def truthy : Option String → Bool
  | none => false
  | some s => s ≠ ""

/-- Model of the Python expression a or b on optional strings. -/
def pyOr (a b : Option String) : Option String := if truthy a then a else b

/-- Model of the Python expression a or "" on an optional string. -/
def orEmpty : Option String → String
  | none => ""
  | some s => s

/-- The normalized record produced by to_schema. -/
structure SRec where
  post_id : Option String
  platform : String
  text : String
  hashtags : List String
  mentions : List String
  created_at : String
  likes : Int
  comments : Int
  shares : Int
  language : String
  location : Option String
  subreddit : Option String
  permalink : String
  url : Option String
deriving DecidableEq

/-- Model of to_schema. -/
def to_schema (post : RawPost) : SRec :=
  let title := orEmpty post.title
  let body := orEmpty post.selftext
  let text := if body ≠ "" then pyStrip (title ++ "\n\n" ++ body) else pyStrip title
  { post_id := pyOr post.name post.id
    platform := "reddit"
    text := text
    hashtags := extract_hashtags (some text)
    mentions := extract_mentions (some text)
    created_at := iso_utc (post.created_utc.getD 0)
    likes := post.score.getD 0
    comments := post.num_comments.getD 0
    shares := 0
    language := "en"
    location := none
    subreddit := post.subreddit
    permalink := "https://www.reddit.com" ++ orEmpty post.permalink
    url := post.url }

/-- One HTTP response as fetch_json observes it: the status code, the
value of the retry-after header when present, and the JSON decoding of
the body — some payload when the body parses as JSON, none when it does
not (the client forces an empty, unparseable body for, e.g., 304 and 1xx
responses, while a non-redirected 3xx such as a 300 can carry a JSON
body). -/
structure Resp where
  status : Nat
  retryAfter : Option String := none
  body : Option String := none
deriving DecidableEq

/-- Result of fetch_json: a decoded body, the HTTPError raised by
raise_for_status, the JSONDecodeError raised by the final json() call on
a body that does not parse, or the RuntimeError raised once the retry
budget is exhausted. -/
inductive FetchResult where
  | ok (body : String)
  | httpError (status : Nat)
  | jsonError
  | exhausted
deriving DecidableEq

/-- Python str.isdigit restricted to ASCII digits. -/
def isDigitStr (s : String) : Bool := s ≠ "" && s.data.all Char.isDigit

/-- Numeric value of an all-digit string. -/
def digitsToNat (s : String) : Nat :=
  s.data.foldl (fun n c => 10 * n + (c.toNat - 48)) 0

/-- The sleep duration of the rate-limit branch of fetch_json: the numeric
retry-after header when present and a digit string, else two to the power
of the attempt index, clamped between two and sixty seconds. -/
def retrySleep (r : Resp) (attempt : Nat) : Nat :=
  min (max (match r.retryAfter with
    | some ra => if isDigitStr ra then digitsToNat ra else 2 ^ attempt
    | none => 2 ^ attempt) 2) 60

/-- The attempt loop of fetch_json.  The attempt index counts up from zero
as in the source range loop while remaining counts the attempts still
allowed, so that attempt plus remaining is always max_retries; the
condition of the 403 branch, attempt below max_retries minus one, is then
exactly remaining of at least two.  The transport gives the response
observed at each attempt; the returned list holds the sleep durations in
order. -/
def fetchGo (resp : Nat → Resp) (attempt : Nat) : Nat → List Nat × FetchResult
  | 0 => ([], .exhausted)
  | remaining + 1 =>
    let r := resp attempt
    if r.status = 429 ∨ r.status = 503 then
      let sleep_for := retrySleep r attempt
      let rest := fetchGo resp (attempt + 1) remaining
      (sleep_for :: rest.1, rest.2)
    else if r.status = 403 ∧ 1 ≤ remaining then
      let sleep_for := min (2 ^ attempt) 30
      let rest := fetchGo resp (attempt + 1) remaining
      (sleep_for :: rest.1, rest.2)
    else if 400 ≤ r.status ∧ r.status < 600 then
      ([], .httpError r.status)
    else
      match r.body with
      | some b => ([], .ok b)
      | none => ([], .jsonError)

/-- Model of fetch_json: the sleeps performed and the final outcome. -/
def fetch_json (resp : Nat → Resp) (max_retries : Nat) : List Nat × FetchResult :=
  fetchGo resp 0 max_retries

/-- One decoded page of the search endpoint: the child post payloads and
the next-page cursor. -/
structure Page where
  children : List RawPost := []
  after : Option String := none

/-- The pagination loop of search_reddit.  The budget is the target minus
the rows already collected, so the loop guard, collected below target, is
budget of at least one.  The transport gives the decoded page of the i-th
fetch.  The result carries the rows collected from this point on, the
number of page fetches and the number of polite inter-page sleeps; a sleep
follows every page that returned both children and a truthy cursor, as in
the source, where the final sleep of line 138 is reached even when the
inner loop broke on the target. -/
def searchLoop (pages : Nat → Page) (idx : Nat) : Nat → List SRec × Nat × Nat
  | 0 => ([], 0, 0)
  | b + 1 =>
    if h : (pages idx).children.isEmpty then ([], 1, 0)
    else
      if truthy (pages idx).after then
        let rest := searchLoop pages (idx + 1)
          (b + 1 - (((pages idx).children.map to_schema).take (b + 1)).length)
        ((((pages idx).children.map to_schema).take (b + 1)) ++ rest.1,
          rest.2.1 + 1, rest.2.2 + 1)
      else ((((pages idx).children.map to_schema).take (b + 1)), 1, 0)
termination_by b => b
decreasing_by
  have h1 : 1 ≤ (pages idx).children.length := by
    cases hc : (pages idx).children with
    | nil => rw [hc] at h; simp at h
    | cons a l => simp [hc]
  simp only [List.length_take, List.length_map]
  omega

/-- Model of search_reddit given a transport for the decoded pages: the
rows returned together with the fetch and sleep counts of the run. -/
def search_reddit (pages : Nat → Page) (limit_total : Nat) : List SRec × Nat × Nat :=
  searchLoop pages 0 limit_total

/-- A combined record as built by the main block: the normalized record
with the topic_tag and engagement keys added. -/
structure TRec extends SRec where
  topic_tag : String
  engagement : Int
deriving DecidableEq

/-- Tagging of a kept record in the main loop: topic_tag is the tag of the
query being processed and engagement is likes plus comments. -/
def tagRec (tag : String) (r : SRec) : TRec :=
  { toSRec := r, topic_tag := tag, engagement := r.likes + r.comments }

/-- The inner dedup loop of the main block over one query's rows: a row
with a falsy or already seen post_id is skipped, otherwise its id is added
to seen_ids and the tagged row is kept. -/
def dedupLoop (seen : List String) (tag : String) : List SRec → List String × List TRec
  | [] => (seen, [])
  | r :: rs =>
    match r.post_id with
    | none => dedupLoop seen tag rs
    | some pid =>
      if pid = "" ∨ pid ∈ seen then dedupLoop seen tag rs
      else
        let rest := dedupLoop (pid :: seen) tag rs
        (rest.1, tagRec tag r :: rest.2)

/-- The outer loop of the main block: one dedup pass per topic, with the
seen_ids set and the combined list carried across topics. -/
def runTopics (topics : List (String × List SRec)) : List TRec :=
  (topics.foldl
    (fun st tq =>
      let step := dedupLoop st.1 tq.1 tq.2
      (step.1, st.2 ++ step.2))
    ([], [])).2

/-- The dedup key of a record: its post_id when truthy. -/
def keyOf (r : SRec) : Option String :=
  match r.post_id with
  | some s => if s = "" then none else some s
  | none => none

/-- The per-query row lists flattened into one processing-order sequence
of tagged rows. -/
def flattenTopics (topics : List (String × List SRec)) : List (String × SRec) :=
  topics.flatMap (fun tq => tq.2.map (fun r => (tq.1, r)))

/-- The deduplication policy as the spec words it: first occurrence wins
and every later occurrence of the same post_id is dropped; rows without a
truthy post_id are dropped as well. -/
def firstOccurrences : List (String × SRec) → List (String × SRec)
  | [] => []
  | p :: ps =>
    match keyOf p.2 with
    | none => firstOccurrences ps
    | some k => p :: firstOccurrences (ps.filter (fun q => keyOf q.2 ≠ some k))
termination_by l => l.length
decreasing_by
  all_goals try simp_wf
  all_goals exact Nat.lt_succ_of_le (List.length_filter_le _ _)

/-- The dedup loop of the main block rephrased over the flattened
processing-order sequence of tagged rows: one step per row, identical
tests to dedupLoop. -/
def dedupFlat (seen : List String) : List (String × SRec) → List String × List TRec
  | [] => (seen, [])
  | p :: ps =>
    match p.2.post_id with
    | none => dedupFlat seen ps
    | some pid =>
      if pid = "" ∨ pid ∈ seen then dedupFlat seen ps
      else
        let rest := dedupFlat (pid :: seen) ps
        (rest.1, tagRec p.1 p.2 :: rest.2)

/-- Whether a row's dedup key is absent or not yet in the seen set. -/
def keyFresh (seen : List String) (p : String × SRec) : Bool :=
  match keyOf p.2 with
  | some k => decide (k ∉ seen)
  | none => true

/-- The lexical rule of the spec for hashtag and mention tokens, stated
over a decomposition of the text: a group w is matched when the marker is
preceded by the start of the string (only available when the scan is
anchored) or by a non-word character, and followed by the one-or-more
word-character group w, maximal because the character after it is not a
word character. -/
def ruleMatch (marker : Char) (anchored : Bool) (s w : List Char) : Prop :=
  ∃ u v, s = u ++ marker :: w ++ v ∧ w ≠ [] ∧
    (∀ c ∈ w, isWordChar c = true) ∧ headIsWord v = false ∧
    ((anchored = true ∧ u = []) ∨ ∃ u2 c, u = u2 ++ [c] ∧ isWordChar c = false)

/-- A JSON value as serialized by json.dumps for these records. -/
inductive JVal where
  | str (s : String)
  | num (n : Int)
  | arr (l : List String)
  | null
deriving DecidableEq

/-- Serialization of an optional string: null when the value is None. -/
def jStr : Option String → JVal
  | some s => .str s
  | none => .null

/-- One line of the JSONL sink: the record as an ordered JSON object, keys
in dict insertion order. -/
def recToJson (r : TRec) : List (String × JVal) :=
  [("post_id", jStr r.post_id), ("platform", .str r.platform),
   ("text", .str r.text), ("hashtags", .arr r.hashtags),
   ("mentions", .arr r.mentions), ("created_at", .str r.created_at),
   ("likes", .num r.likes), ("comments", .num r.comments),
   ("shares", .num r.shares), ("language", .str r.language),
   ("location", jStr r.location), ("subreddit", jStr r.subreddit),
   ("permalink", .str r.permalink), ("url", jStr r.url),
   ("topic_tag", .str r.topic_tag), ("engagement", .num r.engagement)]

/-- Model of save_jsonl: one JSON object per line, one line per row. -/
def save_jsonl (rows : List TRec) : List (List (String × JVal)) :=
  rows.map recToJson

/-- The hard-coded CSV column list of save_csv. -/
def fieldnames : List String :=
  ["post_id", "platform", "text", "hashtags", "mentions", "created_at",
   "likes", "comments", "shares", "language", "location", "subreddit",
   "permalink", "url", "topic_tag", "engagement"]

/-- Model of the Python expression ",".join(l). -/
def commaJoin : List String → String
  | [] => ""
  | [s] => s
  | s :: rest => s ++ "," ++ commaJoin rest

/-- One CSV data row of save_csv, cells in fieldnames order: the list
fields are flattened with a comma join and a None value is written as the
empty string by the csv writer. -/
def csvRow (r : TRec) : List String :=
  [orEmpty r.post_id, r.platform, r.text, commaJoin r.hashtags,
   commaJoin r.mentions, r.created_at, toString r.likes, toString r.comments,
   toString r.shares, r.language, orEmpty r.location, orEmpty r.subreddit,
   r.permalink, orEmpty r.url, r.topic_tag, toString r.engagement]

/-- Model of save_csv: the header row followed by one data row per row. -/
def save_csv (rows : List TRec) : List (List String) :=
  fieldnames :: rows.map csvRow

theorem lexLt_iff {a b : List Char} : lexLt a b = true ↔ List.Lex (· < ·) a b := by
  induction a generalizing b with
  | nil =>
    cases b with
    | nil =>
      constructor
      · intro h; simp [lexLt] at h
      · intro h; cases h
    | cons x xs =>
      constructor
      · intro _; exact List.Lex.nil
      · intro _; rfl
  | cons c cs ih =>
    cases b with
    | nil =>
      constructor
      · intro h; simp [lexLt] at h
      · intro h; cases h
    | cons x xs =>
      simp only [lexLt]
      by_cases h1 : c < x
      · rw [if_pos h1]
        constructor
        · intro _; exact List.Lex.rel h1
        · intro _; rfl
      · by_cases h2 : c = x
        · subst h2
          rw [if_neg h1, if_pos rfl, ih]
          constructor
          · exact fun h => List.Lex.cons h
          · intro h
            cases h with
            | cons h => exact h
            | rel h => exact absurd h h1
        · rw [if_neg h1, if_neg h2]
          constructor
          · intro h; simp at h
          · intro h
            cases h with
            | cons h => exact absurd rfl h2
            | rel h => exact absurd h h1

theorem lexLt_string_iff {s t : String} : lexLt s.data t.data = true ↔ s < t := by
  rw [String.lt_iff_toList_lt]
  exact lexLt_iff

theorem mem_insertSorted {a s : String} {l : List String} :
    a ∈ insertSorted s l ↔ a = s ∨ a ∈ l := by
  induction l with
  | nil => simp [insertSorted]
  | cons x xs ih =>
    simp only [insertSorted]
    by_cases h1 : lexLt s.data x.data
    · rw [if_pos h1]
      simp only [List.mem_cons]
    · by_cases h2 : s = x
      · subst h2
        rw [if_neg h1, if_pos rfl]
        simp only [List.mem_cons]
        tauto
      · rw [if_neg h1, if_neg h2]
        simp only [List.mem_cons, ih]
        tauto

theorem sorted_insertSorted {s : String} {l : List String}
    (hl : l.Sorted (· < ·)) : (insertSorted s l).Sorted (· < ·) := by
  induction l with
  | nil => simp [insertSorted]
  | cons x xs ih =>
    have hx := List.sorted_cons.mp hl
    simp only [insertSorted]
    by_cases h1 : lexLt s.data x.data
    · rw [if_pos h1]
      refine List.sorted_cons.mpr ⟨?_, hl⟩
      intro b hb
      have hsx : s < x := lexLt_string_iff.mp h1
      rcases List.mem_cons.mp hb with hb | hb
      · subst hb; exact hsx
      · exact lt_trans hsx (hx.1 b hb)
    · by_cases h2 : s = x
      · subst h2
        rw [if_neg h1, if_pos rfl]
        exact hl
      · rw [if_neg h1, if_neg h2]
        refine List.sorted_cons.mpr ⟨?_, ih hx.2⟩
        intro b hb
        rcases mem_insertSorted.mp hb with hb | hb
        · subst hb
          have hxs : ¬ b < x := fun hc => h1 (lexLt_string_iff.mpr hc)
          rcases lt_trichotomy b x with hc | hc | hc
          · exact absurd hc hxs
          · exact absurd hc h2
          · exact hc
        · exact hx.1 b hb

theorem dedupSort_sorted (l : List String) : (dedupSort l).Sorted (· < ·) := by
  induction l with
  | nil => simp [dedupSort]
  | cons x xs ih => exact sorted_insertSorted ih

theorem mem_dedupSort {a : String} {l : List String} :
    a ∈ dedupSort l ↔ a ∈ l := by
  induction l with
  | nil => simp [dedupSort]
  | cons x xs ih =>
    show a ∈ insertSorted x (dedupSort xs) ↔ _
    rw [mem_insertSorted]
    simp [ih]

theorem lowerChar_idem (c : Char) : lowerChar (lowerChar c) = lowerChar c := by
  by_cases h : 65 ≤ c.toNat ∧ c.toNat ≤ 90
  · have hv : (Char.ofNat (c.toNat + 32)).toNat = c.toNat + 32 := by
      obtain ⟨h1, h2⟩ := h
      interval_cases hn : c.toNat <;> decide
    have hc : lowerChar c = Char.ofNat (c.toNat + 32) := by
      unfold lowerChar; rw [if_pos h]
    rw [hc]
    unfold lowerChar
    rw [if_neg (by rw [hv]; omega)]
  · have hc : lowerChar c = c := by unfold lowerChar; rw [if_neg h]
    rw [hc, hc]

theorem lowerStr_map_idem (d : List Char) :
    (d.map lowerChar).map lowerChar = d.map lowerChar := by
  rw [List.map_map]
  exact List.map_congr_left (fun c _ => lowerChar_idem c)

theorem dedupSort_lower_props (l : List (List Char)) :
    (dedupSort (l.map (fun g => String.mk (g.map lowerChar)))).Sorted (· < ·) ∧
    (dedupSort (l.map (fun g => String.mk (g.map lowerChar)))).Nodup ∧
    ∀ s ∈ dedupSort (l.map (fun g => String.mk (g.map lowerChar))),
      lowerStr s = s := by
  refine ⟨dedupSort_sorted _, (dedupSort_sorted _).nodup, ?_⟩
  intro s hs
  rcases List.mem_map.mp (mem_dedupSort.mp hs) with ⟨g, hg, rfl⟩
  show String.mk ((g.map lowerChar).map lowerChar) = String.mk (g.map lowerChar)
  rw [lowerStr_map_idem]

/-- Stripping a string with a trailing all-whitespace suffix of two
characters agrees with stripping the string itself. -/
theorem pyStrip_append_ws (t : String) (c1 c2 : Char)
    (h1 : isSpace c1 = true) (h2 : isSpace c2 = true) :
    pyStrip (t ++ String.mk [c1, c2]) = pyStrip t := by
  unfold pyStrip
  rw [String.data_append]
  show String.mk ((List.dropWhile isSpace (t.data ++ [c1, c2])).reverse.dropWhile isSpace).reverse = _
  rw [List.dropWhile_append]
  by_cases he : (List.dropWhile isSpace t.data).isEmpty
  · rw [if_pos he]
    have hnil : List.dropWhile isSpace t.data = [] := by
      cases hd : List.dropWhile isSpace t.data with
      | nil => rfl
      | cons a l => rw [hd] at he; simp [List.isEmpty] at he
    rw [hnil]
    simp [List.dropWhile, h1, h2]
  · rw [if_neg he]
    rw [List.reverse_append]
    show String.mk (List.dropWhile isSpace
      (c2 :: c1 :: (List.dropWhile isSpace t.data).reverse)).reverse = _
    simp [List.dropWhile_cons, h1, h2]

example : iso_utc 0 = "1970-01-01T00:00:00Z" := by decide
example : iso_utc 1700000000 = "2023-11-14T22:13:20Z" := by decide
example : (to_schema { }).likes = 0 := by decide
example : fetch_json (fun _ => { status := 429 }) 3 = ([2, 2, 4], .exhausted) := by decide
example : fetch_json (fun _ => { status := 403 }) 3 = ([1, 2], .httpError 403) := by decide
example : fetch_json (fun _ => { status := 404 }) 3 = ([], .httpError 404) := by decide
example : extract_hashtags (some "Check this #AI_tool out, #cool") = ["ai_tool", "cool"] := by decide
example : extract_hashtags (some "no-hash-here") = [] := by decide
example : extract_hashtags (some "a # b") = [] := by decide
example : extract_hashtags (some "#a#b") = ["a"] := by decide
example : extract_hashtags (some "##a") = ["a"] := by decide
example : extract_hashtags none = [] := by decide
example : extract_mentions (some "hi @Bob and @alice") = ["alice", "bob"] := by decide

end SocialAnalytics

namespace SocialAnalytics

/-- C10: extract_hashtags and extract_mentions are total over all inputs
including None: for None or the empty string they return the empty list
without raising, and for every input their result is a sorted,
duplicate-free list of lowercase strings. -/
theorem c10_extract_total :
    extract_hashtags none = [] ∧ extract_mentions none = [] ∧
    extract_hashtags (some "") = [] ∧ extract_mentions (some "") = [] ∧
    (∀ t : Option String,
      (extract_hashtags t).Sorted (· < ·) ∧ (extract_hashtags t).Nodup ∧
      ∀ s ∈ extract_hashtags t, lowerStr s = s) ∧
    (∀ t : Option String,
      (extract_mentions t).Sorted (· < ·) ∧ (extract_mentions t).Nodup ∧
      ∀ s ∈ extract_mentions t, lowerStr s = s) := by
  refine ⟨rfl, rfl, rfl, rfl, ?_, ?_⟩
  · intro t; exact dedupSort_lower_props _
  · intro t; exact dedupSort_lower_props _

/-- Witness for C10 at concrete inputs. -/
theorem c10_extract_total_witness :
    lowerStr "ai_tool" = "ai_tool" ∧ lowerStr "bob" = "bob" :=
  ⟨(c10_extract_total.2.2.2.2.1 (some "Check this #AI_tool out, #cool")).2.2
      "ai_tool" (by decide),
   (c10_extract_total.2.2.2.2.2 (some "hi @Bob")).2.2 "bob" (by decide)⟩

/-- C8: to_schema defaults an absent or null score or num_comments to
zero, always emits shares as zero, and derives text as the stripped
title when the body is absent and as the stripped concatenation of title
and body when both are given. -/
theorem c8_to_schema_defaults (post : RawPost) :
    (post.score = none → (to_schema post).likes = 0) ∧
    (post.num_comments = none → (to_schema post).comments = 0) ∧
    (to_schema post).shares = 0 ∧
    (post.selftext = none → (to_schema post).text = pyStrip (orEmpty post.title)) ∧
    (∀ ti bo, post.title = some ti → post.selftext = some bo →
      (to_schema post).text = pyStrip (ti ++ "\n\n" ++ bo)) := by
  refine ⟨?_, ?_, rfl, ?_, ?_⟩
  · intro h; simp [to_schema, h]
  · intro h; simp [to_schema, h]
  · intro h; simp [to_schema, h, orEmpty]
  · intro ti bo hti hbo
    simp only [to_schema, hti, hbo]
    by_cases hb : bo = ""
    · subst hb
      simp only [orEmpty, ne_eq, not_true_eq_false, if_false]
      have h2 : ti ++ "\n\n" ++ "" = ti ++ String.mk ['\n', '\n'] := by
        rw [String.append_empty]
      rw [h2, pyStrip_append_ws ti '\n' '\n' rfl rfl]
    · simp [orEmpty, hb]

theorem fetchGo_rl (resp : Nat → Resp) :
    ∀ (remaining attempt : Nat),
    (∀ a, attempt ≤ a → a < attempt + remaining →
      (resp a).status = 429 ∨ (resp a).status = 503) →
    fetchGo resp attempt remaining =
      ((List.range' attempt remaining).map (fun i => retrySleep (resp i) i),
       .exhausted) := by
  intro remaining
  induction remaining with
  | zero => intro attempt h; rfl
  | succ rem ih =>
    intro attempt h
    have h0 := h attempt le_rfl (by omega)
    show fetchGo resp attempt (rem + 1) = _
    simp only [fetchGo]
    rw [if_pos h0]
    rw [ih (attempt + 1) (fun a ha1 ha2 => h a (by omega) (by omega))]
    rw [List.range'_succ]
    rfl

theorem fetchGo_rl_get (resp : Nat → Resp) :
    ∀ (a remaining attempt : Nat),
    a < remaining →
    (∀ b, b ≤ a → (resp (attempt + b)).status = 429 ∨ (resp (attempt + b)).status = 503) →
    (fetchGo resp attempt remaining).1.get? a =
      some (retrySleep (resp (attempt + a)) (attempt + a)) := by
  intro a
  induction a with
  | zero =>
    intro remaining attempt ha h
    obtain ⟨rem, rfl⟩ : ∃ rem, remaining = rem + 1 :=
      ⟨remaining - 1, by omega⟩
    have h0 : (resp attempt).status = 429 ∨ (resp attempt).status = 503 := by
      have := h 0 le_rfl
      simpa using this
    simp only [fetchGo]
    rw [if_pos h0]
    simp
  | succ a ih =>
    intro remaining attempt ha h
    obtain ⟨rem, rfl⟩ : ∃ rem, remaining = rem + 1 :=
      ⟨remaining - 1, by omega⟩
    have h0 : (resp attempt).status = 429 ∨ (resp attempt).status = 503 := by
      have := h 0 (by omega)
      simpa using this
    simp only [fetchGo]
    rw [if_pos h0]
    show (fetchGo resp (attempt + 1) rem).1.get? a = _
    rw [ih rem (attempt + 1) (by omega)
      (fun b hb => by
        have := h (b + 1) (by omega)
        have e : attempt + (b + 1) = attempt + 1 + b := by omega
        rw [e] at this
        exact this)]
    have e : attempt + 1 + a = attempt + a.succ := by omega
    rw [e]

/-- C2: under consecutive 429 or 503 responses with no retry-after header,
the sleeps of fetch_json are exactly the clamped exponential backoff
sequence, non-decreasing and within two to sixty seconds, and once the
max_retries budget is exhausted the call ends in the terminal RuntimeError
rather than retrying again; and whenever the response of an attempt
carries a numeric retry-after header, the sleep of that attempt is that
header value under the same clamping. -/
theorem c2_backoff_bounds :
    (∀ (resp : Nat → Resp) (max_retries : Nat),
      (∀ a, a < max_retries →
        ((resp a).status = 429 ∨ (resp a).status = 503) ∧ (resp a).retryAfter = none) →
      (fetch_json resp max_retries).1 =
        (List.range max_retries).map (fun i => min (max (2 ^ i) 2) 60) ∧
      (fetch_json resp max_retries).1.Chain' (· ≤ ·) ∧
      (∀ x ∈ (fetch_json resp max_retries).1, 2 ≤ x ∧ x ≤ 60) ∧
      (fetch_json resp max_retries).2 = .exhausted) ∧
    (∀ (resp : Nat → Resp) (max_retries a : Nat) (ra : String),
      a < max_retries →
      (∀ b, b ≤ a → (resp b).status = 429 ∨ (resp b).status = 503) →
      (resp a).retryAfter = some ra → isDigitStr ra = true →
      (fetch_json resp max_retries).1.get? a =
        some (min (max (digitsToNat ra) 2) 60)) := by
  constructor
  · intro resp max_retries h
    have hrl : ∀ a, 0 ≤ a → a < 0 + max_retries →
        (resp a).status = 429 ∨ (resp a).status = 503 := by
      intro a _ ha
      exact (h a (by omega)).1
    have heq := fetchGo_rl resp max_retries 0 hrl
    have hsl : (fetch_json resp max_retries).1 =
        (List.range max_retries).map (fun i => min (max (2 ^ i) 2) 60) := by
      show (fetchGo resp 0 max_retries).1 = _
      rw [heq, ← List.range_eq_range']
      refine List.map_congr_left ?_
      intro i hi
      have hha : (resp i).retryAfter = none := (h i (List.mem_range.mp hi)).2
      simp only [retrySleep, hha]
    refine ⟨hsl, ?_, ?_, ?_⟩
    · rw [hsl]
      refine List.Pairwise.chain' ?_
      refine List.Pairwise.map _ ?_ (List.pairwise_lt_range max_retries)
      intro i j hij
      have h2 : (2 : Nat) ^ i ≤ 2 ^ j := Nat.pow_le_pow_right (by omega) (by omega)
      omega
    · rw [hsl]
      intro x hx
      rcases List.mem_map.mp hx with ⟨i, _, rfl⟩
      have h2 : (1 : Nat) ≤ 2 ^ i := Nat.one_le_two_pow
      omega
    · show (fetchGo resp 0 max_retries).2 = .exhausted
      rw [heq]
  · intro resp max_retries a ra ha hrl hra hdig
    have hg := fetchGo_rl_get resp a max_retries 0 ha
      (fun b hb => by simpa using hrl b hb)
    show (fetchGo resp 0 max_retries).1.get? a = _
    rw [hg]
    have e : 0 + a = a := by omega
    rw [e, retrySleep, hra]
    simp [hdig]

/-- Witness for C2 at a concrete transport: six consecutive 429 responses
without a header give the clamped doubling sleeps and exhaustion, and a
numeric retry-after header of ten gives a ten second sleep. -/
theorem c2_backoff_bounds_witness :
    (fetch_json (fun _ => { status := 429 }) 6).1 =
        (List.range 6).map (fun i => min (max (2 ^ i) 2) 60) ∧
    (fetch_json (fun _ => { status := 429 }) 6).2 = .exhausted ∧
    (fetch_json (fun _ => { status := 503, retryAfter := some "10" }) 6).1.get? 0 =
        some (min (max (digitsToNat "10") 2) 60) :=
  ⟨(c2_backoff_bounds.1 (fun _ => { status := 429 }) 6
      (fun a _ => ⟨Or.inl rfl, rfl⟩)).1,
   (c2_backoff_bounds.1 (fun _ => { status := 429 }) 6
      (fun a _ => ⟨Or.inl rfl, rfl⟩)).2.2.2,
   c2_backoff_bounds.2 (fun _ => { status := 503, retryAfter := some "10" }) 6 0 "10"
      (by omega) (fun b _ => Or.inr rfl) rfl (by decide)⟩

theorem fetchGo_403 (resp : Nat → Resp) :
    ∀ (remaining attempt : Nat), 1 ≤ remaining →
    (∀ a, (resp a).status = 403) →
    fetchGo resp attempt remaining =
      ((List.range' attempt (remaining - 1)).map (fun i => min (2 ^ i) 30),
       .httpError 403) := by
  intro remaining
  induction remaining with
  | zero => intro attempt h1 h; omega
  | succ rem ih =>
    intro attempt _ h
    show fetchGo resp attempt (rem + 1) = _
    simp only [fetchGo]
    rw [if_neg (by simp [h attempt])]
    cases rem with
    | zero =>
      rw [if_neg (by simp)]
      rw [if_pos (by rw [h attempt]; omega)]
      rw [h attempt]
      rfl
    | succ r =>
      rw [if_pos ⟨h attempt, by omega⟩]
      rw [ih (attempt + 1) (by omega) h]
      simp only [Nat.add_sub_cancel]
      rw [List.range'_succ]
      rfl

/-- C6 amended: every 403 response is retried with exponential backoff
capped at thirty seconds for one fewer attempt than the retry budget, and
a 403 on the final allowed attempt propagates as an HTTP failure; every
other status in the 400 to 599 range outside 429, 503 and 403 is an
immediate hard failure with no retry; a status below 400 outside 429 and
503 is never retried either, but raise_for_status does not raise for it —
the call returns the decoded body as a success when the body parses as
JSON (possible for a bodied, non-redirected 3xx such as a 300), and the
final json() call raises an immediate JSONDecodeError when the body does
not parse (as with the empty body the client forces for a 304 or 1xx). -/
theorem c6_403_retry_and_hard_failure :
    (∀ (resp : Nat → Resp) (max_retries : Nat),
      1 ≤ max_retries → (∀ a, (resp a).status = 403) →
      (fetch_json resp max_retries).1 =
        (List.range (max_retries - 1)).map (fun i => min (2 ^ i) 30) ∧
      (fetch_json resp max_retries).1.length = max_retries - 1 ∧
      (∀ x ∈ (fetch_json resp max_retries).1, x ≤ 30) ∧
      (fetch_json resp max_retries).2 = .httpError 403) ∧
    (∀ (resp : Nat → Resp) (max_retries : Nat),
      1 ≤ max_retries →
      400 ≤ (resp 0).status → (resp 0).status < 600 →
      (resp 0).status ≠ 429 → (resp 0).status ≠ 503 → (resp 0).status ≠ 403 →
      fetch_json resp max_retries = ([], .httpError ((resp 0).status))) ∧
    (∀ (resp : Nat → Resp) (max_retries : Nat) (b : String),
      1 ≤ max_retries →
      (resp 0).status < 400 →
      (resp 0).status ≠ 429 → (resp 0).status ≠ 503 →
      (resp 0).body = some b →
      fetch_json resp max_retries = ([], .ok b)) ∧
    (∀ (resp : Nat → Resp) (max_retries : Nat),
      1 ≤ max_retries →
      (resp 0).status < 400 →
      (resp 0).status ≠ 429 → (resp 0).status ≠ 503 →
      (resp 0).body = none →
      fetch_json resp max_retries = ([], .jsonError)) := by
  refine ⟨?_, ?_, ?_, ?_⟩
  · intro resp max_retries h1 h
    have heq := fetchGo_403 resp max_retries 0 h1 h
    have hsl : (fetch_json resp max_retries).1 =
        (List.range (max_retries - 1)).map (fun i => min (2 ^ i) 30) := by
      show (fetchGo resp 0 max_retries).1 = _
      rw [heq, ← List.range_eq_range']
    refine ⟨hsl, ?_, ?_, ?_⟩
    · rw [hsl]; simp
    · rw [hsl]
      intro x hx
      rcases List.mem_map.mp hx with ⟨i, _, rfl⟩
      omega
    · show (fetchGo resp 0 max_retries).2 = .httpError 403
      rw [heq]
  · intro resp max_retries h1 h400 h600 h429 h503 h403
    obtain ⟨m, rfl⟩ : ∃ m, max_retries = m + 1 := ⟨max_retries - 1, by omega⟩
    show fetchGo resp 0 (m + 1) = _
    simp only [fetchGo]
    rw [if_neg (by push_neg; exact ⟨h429, h503⟩)]
    rw [if_neg (by intro hc; exact h403 hc.1)]
    rw [if_pos ⟨h400, h600⟩]
  · intro resp max_retries b h1 h400 h429 h503 hb
    obtain ⟨m, rfl⟩ : ∃ m, max_retries = m + 1 := ⟨max_retries - 1, by omega⟩
    show fetchGo resp 0 (m + 1) = _
    simp only [fetchGo]
    rw [if_neg (by push_neg; exact ⟨h429, h503⟩)]
    rw [if_neg (by intro hc; omega)]
    rw [if_neg (by omega)]
    rw [hb]
  · intro resp max_retries h1 h400 h429 h503 hb
    obtain ⟨m, rfl⟩ : ∃ m, max_retries = m + 1 := ⟨max_retries - 1, by omega⟩
    show fetchGo resp 0 (m + 1) = _
    simp only [fetchGo]
    rw [if_neg (by push_neg; exact ⟨h429, h503⟩)]
    rw [if_neg (by intro hc; omega)]
    rw [if_neg (by omega)]
    rw [hb]

/-- Counterexample to C6 as stated: a non-redirected 300 response carrying
a JSON body — a non-2xx status outside the retry set — is returned by
fetch_json as a success rather than raised as an immediate hard failure,
because raise_for_status raises only for statuses of 400 and above and
the final json() call decodes the body.  A 304 is no counterexample: its
body is forced empty, so the same json() call raises an immediate,
un-retried JSONDecodeError there. -/
theorem c6_counterexample :
    fetch_json (fun _ => { status := 300, body := some "choices" }) 6 =
      ([], .ok "choices") := by decide

/-- Witness for the amended C6 at concrete transports, including the 300
with a JSON body returned as a success and the empty-bodied 304 raising
the immediate decode failure. -/
theorem c6_403_retry_and_hard_failure_witness :
    (fetch_json (fun _ => { status := 403 }) 6).1 =
        (List.range 5).map (fun i => min (2 ^ i) 30) ∧
    (fetch_json (fun _ => { status := 403 }) 6).2 = .httpError 403 ∧
    fetch_json (fun _ => { status := 404 }) 6 = ([], .httpError 404) ∧
    fetch_json (fun _ => { status := 300, body := some "b" }) 6 = ([], .ok "b") ∧
    fetch_json (fun _ => { status := 304 }) 6 = ([], .jsonError) :=
  ⟨(c6_403_retry_and_hard_failure.1 (fun _ => { status := 403 }) 6
      (by omega) (fun _ => rfl)).1,
   (c6_403_retry_and_hard_failure.1 (fun _ => { status := 403 }) 6
      (by omega) (fun _ => rfl)).2.2.2,
   c6_403_retry_and_hard_failure.2.1 (fun _ => { status := 404 }) 6
      (by decide) (by decide) (by decide) (by decide) (by decide) (by decide),
   c6_403_retry_and_hard_failure.2.2.1 (fun _ => { status := 300, body := some "b" }) 6
      "b" (by decide) (by decide) (by decide) (by decide) rfl,
   c6_403_retry_and_hard_failure.2.2.2 (fun _ => { status := 304 }) 6
      (by decide) (by decide) (by decide) (by decide) rfl⟩

theorem searchLoop_bounds :
    ∀ (b : Nat) (pages : Nat → Page) (idx : Nat),
    (searchLoop pages idx b).1.length ≤ b ∧
    (searchLoop pages idx b).2.1 ≤ b + 1 := by
  intro b
  induction b using Nat.strong_induction_on with
  | _ b ih =>
    intro pages idx
    match b with
    | 0 => simp [searchLoop]
    | b + 1 =>
      simp only [searchLoop]
      by_cases hc : (pages idx).children.isEmpty
      · simp [hc]
      · have hcl : 1 ≤ (pages idx).children.length := by
          cases hcc : (pages idx).children with
          | nil => rw [hcc] at hc; simp at hc
          | cons a l => simp [hcc]
        rw [dif_neg hc]
        by_cases ht : truthy (pages idx).after
        · rw [if_pos ht]
          dsimp only
          set t := ((pages idx).children.map to_schema).take (b + 1) with htdef
          have hlen : t.length = min (b + 1) (pages idx).children.length := by
            rw [htdef]; simp [List.length_take]
          have hrec := ih (b + 1 - t.length) (by omega) pages (idx + 1)
          constructor
          · rw [List.length_append]; omega
          · omega
        · rw [if_neg ht]
          dsimp only
          constructor
          · simp [List.length_take]
          · omega

theorem searchLoop_sleeps :
    ∀ (b : Nat) (pages : Nat → Page) (idx : Nat),
    (searchLoop pages idx b).2.2 =
      ((List.range (searchLoop pages idx b).2.1).filter
        (fun i => !(pages (idx + i)).children.isEmpty &&
          truthy (pages (idx + i)).after)).length := by
  intro b
  induction b using Nat.strong_induction_on with
  | _ b ih =>
    intro pages idx
    match b with
    | 0 => simp [searchLoop]
    | b + 1 =>
      simp only [searchLoop]
      by_cases hc : (pages idx).children.isEmpty
      · have hr1 : List.range 1 = [0] := rfl
        simp [hc, hr1, List.filter_cons]
      · have hcl : 1 ≤ (pages idx).children.length := by
          cases hcc : (pages idx).children with
          | nil => rw [hcc] at hc; simp at hc
          | cons a l => simp [hcc]
        rw [dif_neg hc]
        by_cases ht : truthy (pages idx).after
        · rw [if_pos ht]
          dsimp only
          set t := ((pages idx).children.map to_schema).take (b + 1) with htdef
          have hlen : t.length = min (b + 1) (pages idx).children.length := by
            rw [htdef]; simp [List.length_take]
          have hrec := ih (b + 1 - t.length) (by omega) pages (idx + 1)
          rw [hrec]
          rw [List.range_succ_eq_map]
          rw [List.filter_cons]
          have hp0 : (!(pages (idx + 0)).children.isEmpty &&
              truthy (pages (idx + 0)).after) = true := by
            simp [hc, ht]
          rw [hp0]
          simp only [if_true, List.length_cons]
          rw [List.filter_map]
          rw [List.length_map]
          have hfe : List.filter ((fun i => !(pages (idx + i)).children.isEmpty &&
              truthy (pages (idx + i)).after) ∘ Nat.succ)
              (List.range (searchLoop pages (idx + 1) (b + 1 - t.length)).2.1) =
            List.filter (fun i => !(pages (idx + 1 + i)).children.isEmpty &&
              truthy (pages (idx + 1 + i)).after)
              (List.range (searchLoop pages (idx + 1) (b + 1 - t.length)).2.1) := by
            refine List.filter_congr ?_
            intro i _
            have e : idx + i.succ = idx + 1 + i := by omega
            simp only [Function.comp, e]
          rw [hfe]
        · rw [if_neg ht]
          dsimp only
          have hp0 : (!(pages (idx + 0)).children.isEmpty &&
              truthy (pages (idx + 0)).after) = false := by
            simp [ht]
          have hr1 : List.range 1 = [0] := rfl
          simp [hp0, hr1, List.filter_cons, ht]

/-- C3: for every transport and target, the pagination loop of
search_reddit returns at most limit_total rows, performs at most
limit_total plus one page fetches even when every page carries a cursor,
and stops after a single fetch when the first page has no items or no
truthy cursor. -/
theorem c3_pagination_termination :
    ∀ (pages : Nat → Page) (limit_total : Nat),
      (search_reddit pages limit_total).1.length ≤ limit_total ∧
      (search_reddit pages limit_total).2.1 ≤ limit_total + 1 ∧
      ((pages 0).children.isEmpty = true → 1 ≤ limit_total →
        (search_reddit pages limit_total).2.1 = 1) ∧
      (truthy (pages 0).after = false → 1 ≤ limit_total →
        (search_reddit pages limit_total).2.1 = 1) := by
  intro pages limit_total
  refine ⟨(searchLoop_bounds limit_total pages 0).1,
    (searchLoop_bounds limit_total pages 0).2, ?_, ?_⟩
  · intro hc hl
    obtain ⟨m, rfl⟩ : ∃ m, limit_total = m + 1 := ⟨limit_total - 1, by omega⟩
    show (searchLoop pages 0 (m + 1)).2.1 = 1
    simp only [searchLoop]
    simp [hc]
  · intro ht hl
    obtain ⟨m, rfl⟩ : ∃ m, limit_total = m + 1 := ⟨limit_total - 1, by omega⟩
    show (searchLoop pages 0 (m + 1)).2.1 = 1
    simp only [searchLoop]
    by_cases hc : (pages 0).children.isEmpty
    · simp [hc]
    · simp [hc, ht]

/-- Witness for C3 at a concrete transport that always returns a cursor
and one item per page: with a target of three, the run returns three rows
in four fetches, and an empty first page stops after one fetch. -/
theorem c3_pagination_termination_witness :
    (search_reddit (fun _ => { children := [{ }], after := some "x" }) 3).1.length ≤ 3 ∧
    (search_reddit (fun _ => { children := [{ }], after := some "x" }) 3).2.1 ≤ 4 ∧
    (search_reddit (fun _ => { children := [], after := some "x" }) 5).2.1 = 1 ∧
    (search_reddit (fun _ => { children := [{ }], after := none }) 5).2.1 = 1 :=
  ⟨(c3_pagination_termination (fun _ => { children := [{ }], after := some "x" }) 3).1,
   (c3_pagination_termination (fun _ => { children := [{ }], after := some "x" }) 3).2.1,
   (c3_pagination_termination (fun _ => { children := [], after := some "x" }) 5).2.2.1
      rfl (by omega),
   (c3_pagination_termination (fun _ => { children := [{ }], after := none }) 5).2.2.2
      rfl (by omega)⟩

/-- Counterexample to C5 as stated: with a transport whose single fetched
page returns one item and a cursor and a target of one, the loop fetches
exactly one page — the terminal one, terminated by reaching the target —
yet performs one polite sleep after it, so the delay is not skipped on
the terminal page. -/
theorem c5_counterexample :
    (search_reddit (fun _ => { children := [{ }], after := some "x" }) 1).2.1 = 1 ∧
    (search_reddit (fun _ => { children := [{ }], after := some "x" }) 1).2.2 = 1 := by
  constructor
  · show (searchLoop _ 0 1).2.1 = 1
    simp [searchLoop, truthy]
  · show (searchLoop _ 0 1).2.2 = 1
    simp [searchLoop, truthy]

/-- C5 amended: the polite delay runs after every fetched page that
returned both items and a truthy cursor — including the terminal page
when the loop stops because the target was reached — and is skipped after
a terminal page that returned no items or no truthy cursor: the sleep
count equals the number of fetched pages with nonempty children and a
truthy cursor. -/
theorem c5_sleep_after_cursor_pages :
    ∀ (pages : Nat → Page) (limit_total : Nat),
      (search_reddit pages limit_total).2.2 =
        ((List.range (search_reddit pages limit_total).2.1).filter
          (fun i => !(pages i).children.isEmpty && truthy (pages i).after)).length := by
  intro pages limit_total
  have h := searchLoop_sleeps limit_total pages 0
  show (searchLoop pages 0 limit_total).2.2 = _
  rw [h]
  refine congrArg List.length ?_
  refine List.filter_congr ?_
  intro i _
  have e : 0 + i = i := by omega
  rw [e]

theorem jStr_inj : ∀ {a b : Option String}, jStr a = jStr b → a = b := by
  intro a b h
  cases a with
  | none =>
    cases b with
    | none => rfl
    | some s => simp [jStr] at h
  | some s =>
    cases b with
    | none => simp [jStr] at h
    | some s2 => simp [jStr] at h; rw [h]

theorem recToJson_injective : Function.Injective recToJson := by
  intro r1 r2 h
  cases r1 with | mk s1 t1 e1 =>
  cases r2 with | mk s2 t2 e2 =>
  cases s1
  cases s2
  simp only [recToJson, List.cons.injEq, Prod.mk.injEq, JVal.str.injEq,
    JVal.num.injEq, JVal.arr.injEq, and_true, true_and] at h
  obtain ⟨h1, h2, h3, h4, h5, h6, h7, h8, h9, h10, h11, h12, h13, h14, h15, h16⟩ := h
  cases jStr_inj h1
  cases jStr_inj h11
  cases jStr_inj h12
  cases jStr_inj h14
  subst_vars
  rfl

/-- C7: every record appears exactly once in the line-delimited output
(one JSON object per line, counted up to the injective serialization) and
exactly once, positionally, in the tabular output after the header row;
hashtags and mentions are actual lists on the JSONL side and comma-joined
strings on the CSV side; and a record whose optional fields are None
serializes as null on the JSONL side and as the empty string on the CSV
side, the writers being total. -/
theorem c7_export_roundtrip :
    (∀ (rows : List TRec) (r : TRec),
      (save_jsonl rows).countP (fun l => decide (l = recToJson r)) =
        rows.countP (fun x => decide (x = r))) ∧
    (∀ rows : List TRec, (save_jsonl rows).length = rows.length) ∧
    (∀ rows : List TRec, (save_csv rows).length = rows.length + 1) ∧
    (∀ (rows : List TRec) (i : Nat) (h : i < rows.length),
      (save_jsonl rows).get? i = some (recToJson (rows.get ⟨i, h⟩)) ∧
      (save_csv rows).get? (i + 1) = some (csvRow (rows.get ⟨i, h⟩))) ∧
    (∀ r : TRec,
      ("hashtags", JVal.arr r.hashtags) ∈ recToJson r ∧
      ("mentions", JVal.arr r.mentions) ∈ recToJson r ∧
      (csvRow r).get? 3 = some (commaJoin r.hashtags) ∧
      (csvRow r).get? 4 = some (commaJoin r.mentions)) ∧
    (∀ r : TRec, r.location = none → r.url = none →
      ("location", JVal.null) ∈ recToJson r ∧
      ("url", JVal.null) ∈ recToJson r ∧
      (csvRow r).get? 10 = some "" ∧
      (csvRow r).get? 13 = some "") := by
  refine ⟨?_, ?_, ?_, ?_, ?_, ?_⟩
  · intro rows r
    show (rows.map recToJson).countP _ = _
    rw [List.countP_map]
    refine List.countP_congr ?_
    intro x _
    simp only [Function.comp]
    constructor
    · intro hx
      exact decide_eq_true (recToJson_injective (of_decide_eq_true hx))
    · intro hx
      exact decide_eq_true (congrArg recToJson (of_decide_eq_true hx))
  · intro rows; simp [save_jsonl]
  · intro rows; simp [save_csv]
  · intro rows i h
    constructor
    · show (rows.map recToJson).get? i = _
      rw [List.get?_map, List.get?_eq_get h]
      rfl
    · show (rows.map csvRow).get? i = _
      rw [List.get?_map, List.get?_eq_get h]
      rfl
  · intro r
    refine ⟨?_, ?_, rfl, rfl⟩ <;> simp [recToJson]
  · intro r hloc hurl
    refine ⟨?_, ?_, ?_, ?_⟩
    · simp [recToJson, hloc, jStr]
    · simp [recToJson, hurl, jStr]
    · show some (orEmpty r.location) = some ""
      rw [hloc]; rfl
    · show some (orEmpty r.url) = some ""
      rw [hurl]; rfl

/-- Witness for C7 at a concrete record list with None-valued optional
fields. -/
theorem c7_export_roundtrip_witness :
    (save_jsonl [tagRec "t" (to_schema { })]).get? 0 =
        some (recToJson ([tagRec "t" (to_schema { })].get ⟨0, by decide⟩)) ∧
    (save_csv [tagRec "t" (to_schema { })]).get? 1 =
        some (csvRow ([tagRec "t" (to_schema { })].get ⟨0, by decide⟩)) ∧
    ("url", JVal.null) ∈ recToJson (tagRec "t" (to_schema { })) ∧
    (csvRow (tagRec "t" (to_schema { }))).get? 13 = some "" :=
  ⟨(c7_export_roundtrip.2.2.2.1 [tagRec "t" (to_schema { })] 0 (by decide)).1,
   (c7_export_roundtrip.2.2.2.1 [tagRec "t" (to_schema { })] 0 (by decide)).2,
   (c7_export_roundtrip.2.2.2.2.2 (tagRec "t" (to_schema { })) rfl rfl).2.1,
   (c7_export_roundtrip.2.2.2.2.2 (tagRec "t" (to_schema { })) rfl rfl).2.2.2⟩

/-- Witness for C8 at concrete inputs. -/
theorem c8_to_schema_defaults_witness :
    (to_schema { }).likes = 0 ∧ (to_schema { }).comments = 0 ∧
    (to_schema { title := some " T ", selftext := some "B" }).text =
      pyStrip (" T " ++ "\n\n" ++ "B") :=
  ⟨(c8_to_schema_defaults { }).1 rfl,
   (c8_to_schema_defaults { }).2.1 rfl,
   (c8_to_schema_defaults _).2.2.2.2 " T " "B" rfl rfl⟩

end SocialAnalytics

namespace SocialAnalytics

theorem keyOf_eq_some {r : SRec} {k : String} (h : keyOf r = some k) :
    r.post_id = some k ∧ k ≠ "" := by
  cases hp : r.post_id with
  | none =>
    simp only [keyOf, hp] at h
    cases h
  | some s =>
    simp only [keyOf, hp] at h
    by_cases hs : s = ""
    · rw [if_pos hs] at h; cases h
    · rw [if_neg hs] at h
      cases h
      exact ⟨rfl, hs⟩

theorem dedupFlat_cons_drop_none {p : String × SRec} {seen : List String}
    {ps : List (String × SRec)} (h : keyOf p.2 = none) :
    dedupFlat seen (p :: ps) = dedupFlat seen ps := by
  cases hp : p.2.post_id with
  | none => simp only [dedupFlat, hp]
  | some s =>
    simp only [keyOf, hp] at h
    by_cases hs : s = ""
    · simp only [dedupFlat, hp]
      rw [if_pos (Or.inl hs)]
    · rw [if_neg hs] at h; cases h

theorem dedupFlat_cons_drop_seen {p : String × SRec} {seen : List String}
    {ps : List (String × SRec)} {k : String} (h : keyOf p.2 = some k)
    (hs : k ∈ seen) :
    dedupFlat seen (p :: ps) = dedupFlat seen ps := by
  obtain ⟨hp, _⟩ := keyOf_eq_some h
  simp only [dedupFlat, hp]
  rw [if_pos (Or.inr hs)]

theorem dedupFlat_cons_keep {p : String × SRec} {seen : List String}
    {ps : List (String × SRec)} {k : String} (h : keyOf p.2 = some k)
    (hs : k ∉ seen) :
    dedupFlat seen (p :: ps) =
      ((dedupFlat (k :: seen) ps).1,
       tagRec p.1 p.2 :: (dedupFlat (k :: seen) ps).2) := by
  obtain ⟨hp, hne⟩ := keyOf_eq_some h
  simp only [dedupFlat, hp]
  rw [if_neg (by push_neg; exact ⟨hne, hs⟩)]

theorem firstOccurrences_cons_none {p : String × SRec}
    {ps : List (String × SRec)} (hk : keyOf p.2 = none) :
    firstOccurrences (p :: ps) = firstOccurrences ps := by
  simp only [firstOccurrences, hk]

theorem firstOccurrences_cons_some {p : String × SRec}
    {ps : List (String × SRec)} {k : String} (hk : keyOf p.2 = some k) :
    firstOccurrences (p :: ps) =
      p :: firstOccurrences (ps.filter (fun q => keyOf q.2 ≠ some k)) := by
  simp only [firstOccurrences, hk]

theorem keyFresh_cons (k : String) (seen : List String) (q : String × SRec) :
    keyFresh (k :: seen) q = (keyFresh seen q && decide (keyOf q.2 ≠ some k)) := by
  cases hq : keyOf q.2 with
  | none => simp [keyFresh, hq]
  | some k2 =>
    simp only [keyFresh, hq, List.mem_cons]
    by_cases h1 : k2 = k
    · subst h1; simp
    · by_cases h2 : k2 ∈ seen <;> simp [h1, h2]

theorem dedupFlat_map_tag (tag : String) :
    ∀ (rows : List SRec) (seen : List String),
    dedupFlat seen (rows.map (fun r => (tag, r))) = dedupLoop seen tag rows := by
  intro rows
  induction rows with
  | nil => intro seen; rfl
  | cons r rs ih =>
    intro seen
    cases hp : r.post_id with
    | none =>
      simp only [List.map_cons, dedupFlat, dedupLoop, hp]
      exact ih seen
    | some pid =>
      simp only [List.map_cons, dedupFlat, dedupLoop, hp]
      by_cases hs : pid = "" ∨ pid ∈ seen
      · rw [if_pos hs, if_pos hs]; exact ih seen
      · rw [if_neg hs, if_neg hs, ih (pid :: seen)]

theorem dedupFlat_append :
    ∀ (ps qs : List (String × SRec)) (seen : List String),
    dedupFlat seen (ps ++ qs) =
      ((dedupFlat (dedupFlat seen ps).1 qs).1,
       (dedupFlat seen ps).2 ++ (dedupFlat (dedupFlat seen ps).1 qs).2) := by
  intro ps
  induction ps with
  | nil => intro qs seen; simp [dedupFlat]
  | cons p ps ih =>
    intro qs seen
    cases hp : p.2.post_id with
    | none =>
      simp only [List.cons_append, dedupFlat, hp]
      exact ih qs seen
    | some pid =>
      simp only [List.cons_append, dedupFlat, hp]
      by_cases hs : pid = "" ∨ pid ∈ seen
      · rw [if_pos hs, if_pos hs]; exact ih qs seen
      · rw [if_neg hs, if_neg hs]
        simp only [List.append_eq]
        rw [ih qs (pid :: seen)]
        simp

theorem runTopics_foldl_eq :
    ∀ (topics : List (String × List SRec)) (seen : List String) (acc : List TRec),
    topics.foldl (fun st tq =>
      let step := dedupLoop st.1 tq.1 tq.2
      (step.1, st.2 ++ step.2)) (seen, acc) =
      ((dedupFlat seen (flattenTopics topics)).1,
       acc ++ (dedupFlat seen (flattenTopics topics)).2) := by
  intro topics
  induction topics with
  | nil => intro seen acc; simp [flattenTopics, dedupFlat]
  | cons tq rest ih =>
    intro seen acc
    simp only [List.foldl_cons]
    rw [ih]
    have hflat : flattenTopics (tq :: rest) =
        tq.2.map (fun r => (tq.1, r)) ++ flattenTopics rest := by
      simp [flattenTopics]
    rw [hflat, dedupFlat_append, dedupFlat_map_tag]
    simp [List.append_assoc]

theorem dedupFlat_eq_firstOccurrences :
    ∀ (n : Nat) (l : List (String × SRec)) (seen : List String), l.length ≤ n →
    (dedupFlat seen l).2 =
      (firstOccurrences (l.filter (keyFresh seen))).map (fun p => tagRec p.1 p.2) := by
  intro n
  induction n with
  | zero =>
    intro l seen hl
    have : l = [] := List.length_eq_zero.mp (by omega)
    subst this
    simp [dedupFlat, firstOccurrences]
  | succ n ih =>
    intro l seen hl
    cases l with
    | nil => simp [dedupFlat, firstOccurrences]
    | cons p ps =>
      simp only [List.length_cons] at hl
      cases hk : keyOf p.2 with
      | none =>
        have hkf : keyFresh seen p = true := by simp [keyFresh, hk]
        rw [dedupFlat_cons_drop_none hk]
        rw [List.filter_cons_of_pos hkf]
        rw [firstOccurrences_cons_none hk]
        exact ih ps seen (by omega)
      | some k =>
        by_cases hks : k ∈ seen
        · have hkf : keyFresh seen p = false := by
            simp [keyFresh, hk, hks]
          rw [dedupFlat_cons_drop_seen hk hks]
          rw [List.filter_cons_of_neg (by simp [hkf])]
          exact ih ps seen (by omega)
        · have hkf : keyFresh seen p = true := by simp [keyFresh, hk, hks]
          rw [dedupFlat_cons_keep hk hks]
          rw [List.filter_cons_of_pos hkf]
          rw [firstOccurrences_cons_some hk]
          simp only [List.map_cons]
          rw [ih ps (k :: seen) (by omega)]
          have hff : ps.filter (keyFresh (k :: seen)) =
              (ps.filter (keyFresh seen)).filter (fun q => keyOf q.2 ≠ some k) := by
            rw [List.filter_filter]
            refine List.filter_congr ?_
            intro q _
            rw [keyFresh_cons, Bool.and_comm]
          rw [hff]

theorem runTopics_eq_firstOccurrences (topics : List (String × List SRec)) :
    runTopics topics =
      (firstOccurrences (flattenTopics topics)).map (fun p => tagRec p.1 p.2) := by
  show (topics.foldl _ ([], [])).2 = _
  rw [runTopics_foldl_eq topics [] []]
  show [] ++ (dedupFlat [] (flattenTopics topics)).2 = _
  rw [List.nil_append]
  rw [dedupFlat_eq_firstOccurrences (flattenTopics topics).length _ [] le_rfl]
  have hfl : (flattenTopics topics).filter (keyFresh []) = flattenTopics topics := by
    refine List.filter_eq_self.mpr ?_
    intro q _
    cases hq : keyOf q.2 <;> simp [keyFresh, hq]
  rw [hfl]

theorem firstOccurrences_sub :
    ∀ (n : Nat) (l : List (String × SRec)) (q : String × SRec), l.length ≤ n →
    q ∈ firstOccurrences l → q ∈ l := by
  intro n
  induction n with
  | zero =>
    intro l q hl
    have : l = [] := List.length_eq_zero.mp (by omega)
    subst this
    intro h; simp [firstOccurrences] at h
  | succ n ih =>
    intro l q hl hq
    cases l with
    | nil => simp [firstOccurrences] at hq
    | cons p ps =>
      simp only [List.length_cons] at hl
      cases hk : keyOf p.2 with
      | none =>
        rw [firstOccurrences_cons_none hk] at hq
        exact List.mem_cons_of_mem p (ih ps q (by omega) hq)
      | some k =>
        rw [firstOccurrences_cons_some hk] at hq
        rcases List.mem_cons.mp hq with hq | hq
        · exact hq ▸ List.mem_cons_self p ps
        · have hsub := ih (ps.filter (fun q => keyOf q.2 ≠ some k)) q
            (by have := List.length_filter_le (fun q => decide (keyOf q.2 ≠ some k)) ps; omega) hq
          exact List.mem_cons_of_mem p (List.mem_of_mem_filter hsub)

theorem firstOccurrences_keys :
    ∀ (n : Nat) (l : List (String × SRec)), l.length ≤ n →
    (∀ q ∈ firstOccurrences l, ∃ k, keyOf q.2 = some k) ∧
    ((firstOccurrences l).map (fun q => keyOf q.2)).Nodup := by
  intro n
  induction n with
  | zero =>
    intro l hl
    have : l = [] := List.length_eq_zero.mp (by omega)
    subst this
    exact ⟨fun q hq => absurd hq (by simp [firstOccurrences]), by simp [firstOccurrences]⟩
  | succ n ih =>
    intro l hl
    cases l with
    | nil =>
      exact ⟨fun q hq => absurd hq (by simp [firstOccurrences]), by simp [firstOccurrences]⟩
    | cons p ps =>
      simp only [List.length_cons] at hl
      cases hk : keyOf p.2 with
      | none =>
        rw [firstOccurrences_cons_none hk]
        exact ih ps (by omega)
      | some k =>
        rw [firstOccurrences_cons_some hk]
        have hlf : (ps.filter (fun q => keyOf q.2 ≠ some k)).length ≤ n := by
          have := List.length_filter_le (fun q => decide (keyOf q.2 ≠ some k)) ps
          omega
        have hihf := ih (ps.filter (fun q => keyOf q.2 ≠ some k)) hlf
        constructor
        · intro q hq
          rcases List.mem_cons.mp hq with hq | hq
          · exact ⟨k, hq ▸ hk⟩
          · exact hihf.1 q hq
        · simp only [List.map_cons, List.nodup_cons]
          refine ⟨?_, hihf.2⟩
          intro hmem
          rcases List.mem_map.mp hmem with ⟨q, hq, hkq⟩
          have hq2 := firstOccurrences_sub
            (ps.filter (fun q => keyOf q.2 ≠ some k)).length _ q le_rfl hq
          have := List.of_mem_filter hq2
          rw [hkq] at this
          simp at this
          exact this hk

end SocialAnalytics

namespace SocialAnalytics

theorem runTopics_post_ids_nodup (topics : List (String × List SRec)) :
    ((runTopics topics).map (fun r => r.toSRec.post_id)).Nodup := by
  rw [runTopics_eq_firstOccurrences topics, List.map_map]
  have hkeys := firstOccurrences_keys (flattenTopics topics).length
    (flattenTopics topics) le_rfl
  have hmapeq : (firstOccurrences (flattenTopics topics)).map
      ((fun r => r.toSRec.post_id) ∘ (fun p => tagRec p.1 p.2)) =
      (firstOccurrences (flattenTopics topics)).map (fun q => keyOf q.2) := by
    refine List.map_congr_left ?_
    intro q hq
    obtain ⟨k, hk⟩ := hkeys.1 q hq
    obtain ⟨hpid, _⟩ := keyOf_eq_some hk
    simp only [Function.comp, tagRec]
    rw [hpid, hk]
  rw [hmapeq]
  exact hkeys.2

/-- C1: across all queries of one run the combined output holds exactly
one record per distinct truthy post_id — the record of the first
occurrence in processing order, tagged with the topic of the first query
that produced it, not merged with or updated by later occurrences — and
every later occurrence of an already seen post_id is silently dropped:
the accumulated output equals the first-occurrence filter of the
flattened processing-order sequence, and the emitted post_ids are
pairwise distinct. -/
theorem c1_first_occurrence_wins (topics : List (String × List SRec)) :
    runTopics topics =
      (firstOccurrences (flattenTopics topics)).map (fun p => tagRec p.1 p.2) ∧
    ((runTopics topics).map (fun r => r.toSRec.post_id)).Nodup :=
  ⟨runTopics_eq_firstOccurrences topics, runTopics_post_ids_nodup topics⟩

/-- C9: every record in the combined output carries a truthy post_id — a
transformed record whose source supplied neither a name nor an id (or
only falsy ones) is dropped by the accumulation loop and never reaches
the sinks — and the emitted post_ids are pairwise distinct. -/
theorem c9_output_post_ids (topics : List (String × List SRec)) :
    (∀ r ∈ runTopics topics, ∃ s, r.toSRec.post_id = some s ∧ s ≠ "") ∧
    ((runTopics topics).map (fun r => r.toSRec.post_id)).Nodup := by
  constructor
  · intro r hr
    rw [runTopics_eq_firstOccurrences topics] at hr
    rcases List.mem_map.mp hr with ⟨q, hq, rfl⟩
    have hkeys := firstOccurrences_keys (flattenTopics topics).length
      (flattenTopics topics) le_rfl
    obtain ⟨k, hk⟩ := hkeys.1 q hq
    obtain ⟨hpid, hne⟩ := keyOf_eq_some hk
    exact ⟨k, hpid, hne⟩
  · exact runTopics_post_ids_nodup topics

/-- Witness for C9 at a concrete run of one topic with one record. -/
theorem c9_output_post_ids_witness :
    ∃ s, (tagRec "t" (to_schema { name := some "abc" })).toSRec.post_id =
      some s ∧ s ≠ "" :=
  (c9_output_post_ids [("t", [to_schema { name := some "abc" }])]).1
    (tagRec "t" (to_schema { name := some "abc" })) (by decide)

end SocialAnalytics

namespace SocialAnalytics

theorem takeRun_spec : ∀ l : List Char,
    l = (takeRun l).1 ++ (takeRun l).2 ∧
    (∀ c ∈ (takeRun l).1, isWordChar c = true) ∧
    headIsWord (takeRun l).2 = false := by
  intro l
  induction l with
  | nil => exact ⟨rfl, fun c hc => absurd hc (List.not_mem_nil c), rfl⟩
  | cons c cs ih =>
    by_cases h : isWordChar c
    · simp only [takeRun, h, if_true]
      refine ⟨?_, ?_, ih.2.2⟩
      · show c :: cs = c :: ((takeRun cs).1 ++ (takeRun cs).2)
        rw [← ih.1]
      · intro x hx
        rcases List.mem_cons.mp hx with hx | hx
        · subst hx; exact h
        · exact ih.2.1 x hx
    · simp only [takeRun, h, if_false]
      refine ⟨rfl, ?_, ?_⟩
      · intro x hx; cases hx
      · show headIsWord (c :: cs) = false
        simp [headIsWord]
        exact eq_false_of_ne_true h

theorem takeRun_head {l : List Char} (h : headIsWord l = true) :
    (takeRun l).1 ≠ [] := by
  cases l with
  | nil => simp [headIsWord] at h
  | cons c cs =>
    simp only [headIsWord] at h
    simp [takeRun, h]

theorem takeRun_unique : ∀ (w v : List Char),
    (∀ c ∈ w, isWordChar c = true) → headIsWord v = false →
    takeRun (w ++ v) = (w, v) := by
  intro w
  induction w with
  | nil =>
    intro v _ hv
    cases v with
    | nil => rfl
    | cons c cs =>
      simp only [headIsWord] at hv
      simp [takeRun, hv]
  | cons a w ih =>
    intro v hw hv
    have ha : isWordChar a = true := hw a (List.mem_cons_self a w)
    simp only [List.cons_append, takeRun, ha, if_true]
    simp only [List.append_eq]
    rw [ih v (fun c hc => hw c (List.mem_cons_of_mem a hc)) hv]

theorem ruleMatch_nil {marker : Char} {anchored : Bool} {w : List Char} :
    ¬ ruleMatch marker anchored [] w := by
  rintro ⟨u, v, heq, hw, _, _, _⟩
  have := congrArg List.length heq
  simp at this
  omega

end SocialAnalytics

namespace SocialAnalytics

theorem ruleMatch_cons {marker c : Char} {cs w : List Char} {anchored : Bool} :
    ruleMatch marker anchored (c :: cs) w ↔
      ((anchored = true ∧ c = marker ∧
        ∃ v, cs = w ++ v ∧ w ≠ [] ∧ (∀ x ∈ w, isWordChar x = true) ∧
          headIsWord v = false) ∨
       (isWordChar c = false ∧
        ∃ v, cs = marker :: w ++ v ∧ w ≠ [] ∧ (∀ x ∈ w, isWordChar x = true) ∧
          headIsWord v = false) ∨
       ruleMatch marker false cs w) := by
  constructor
  · rintro ⟨u, v, heq, hw, hword, hv, hu⟩
    cases u with
    | nil =>
      simp only [List.nil_append] at heq
      injection heq with hc hcs
      rcases hu with ⟨ha, _⟩ | ⟨u2, c0, hu2, _⟩
      · exact Or.inl ⟨ha, hc, v, hcs, hw, hword, hv⟩
      · exfalso
        have := congrArg List.length hu2
        simp at this
    | cons x u2 =>
      simp only [List.cons_append] at heq
      injection heq with hx hcs
      subst hx
      rcases hu with ⟨_, hunil⟩ | ⟨u3, c0, hu3, hc0⟩
      · exact absurd hunil (List.cons_ne_nil _ _)
      · cases u2 with
        | nil =>
          have hc0c : c0 = c := by
            cases u3 with
            | nil =>
              simp only [List.nil_append] at hu3
              injection hu3 with h1 _
              exact h1.symm
            | cons z u5 =>
              exfalso
              have := congrArg List.length hu3
              simp at this
          subst hc0c
          refine Or.inr (Or.inl ⟨hc0, v, ?_, hw, hword, hv⟩)
          simpa using hcs
        | cons y u4 =>
          refine Or.inr (Or.inr ⟨y :: u4, v, hcs, hw, hword, hv, Or.inr ?_⟩)
          cases u3 with
          | nil =>
            exfalso
            simp only [List.nil_append] at hu3
            injection hu3 with _ h2
            exact List.cons_ne_nil y u4 h2
          | cons z u5 =>
            simp only [List.cons_append] at hu3
            injection hu3 with _ hrest
            exact ⟨u5, c0, hrest, hc0⟩
  · rintro (⟨ha, hc, v, hcs, hw, hword, hv⟩ | ⟨hcw, v, hcs, hw, hword, hv⟩ |
      ⟨u, v, heq, hw, hword, hv, hu⟩)
    · refine ⟨[], v, ?_, hw, hword, hv, Or.inl ⟨ha, rfl⟩⟩
      rw [List.nil_append, hcs, hc]
      rfl
    · refine ⟨[c], v, ?_, hw, hword, hv, Or.inr ⟨[], c, rfl, hcw⟩⟩
      rw [hcs]; rfl
    · rcases hu with ⟨hfalse, _⟩ | ⟨u2, c0, hu2, hc0⟩
      · cases hfalse
      · refine ⟨c :: u, v, ?_, hw, hword, hv, Or.inr ⟨c :: u2, c0, ?_, hc0⟩⟩
        · rw [List.cons_append, heq]
          simp [List.append_assoc]
        · rw [List.cons_append, hu2]

end SocialAnalytics

namespace SocialAnalytics

theorem scanAux_mem_iff {marker : Char} (hm : isWordChar marker = false) :
    ∀ (s : List Char) (anchored : Bool) (w : List Char),
    w ∈ scanAux marker anchored s ↔ ruleMatch marker anchored s w := by
  intro s
  induction s with
  | nil =>
    intro anchored w
    constructor
    · intro h; simp [scanAux] at h
    · intro h; exact absurd h ruleMatch_nil
  | cons c cs ih =>
    intro anchored w
    rw [ruleMatch_cons]
    by_cases hb1 : anchored = true ∧ c = marker ∧ headIsWord cs = true
    · obtain ⟨ha, hc, hhw⟩ := hb1
      have hcond : (anchored && (c == marker) && headIsWord cs) = true := by
        rw [ha, hhw, beq_iff_eq.mpr hc]; rfl
      rw [scanAux.eq_def]
      simp only [hcond, if_true, List.mem_cons]
      rw [ih false w]
      constructor
      · rintro (rfl | h)
        · left
          have hs := takeRun_spec cs
          exact ⟨ha, hc, (takeRun cs).2, hs.1, takeRun_head hhw, hs.2.1, hs.2.2⟩
        · exact Or.inr (Or.inr h)
      · rintro (⟨_, _, v, hcs, hw, hword, hv⟩ | ⟨hcw, v, hcs, _, hword, _⟩ | h)
        · left
          rw [hcs, takeRun_unique w v hword hv]
        · exfalso
          rw [hcs] at hhw
          simp [headIsWord, hm] at hhw
        · exact Or.inr h
    · have hcond : (anchored && (c == marker) && headIsWord cs) = false := by
        cases h3 : (anchored && (c == marker) && headIsWord cs)
        · rfl
        · exfalso
          apply hb1
          simp only [Bool.and_eq_true, beq_iff_eq, and_assoc] at h3
          exact h3
      cases cs with
      | nil =>
        constructor
        · intro h
          rw [scanAux.eq_def] at h
          simp [hcond] at h
        · rintro (⟨ha, hc, v, hcs, hw, hword, hv⟩ | ⟨_, v, hcs, _, _, _⟩ | h)
          · exfalso
            cases w with
            | nil => exact hw rfl
            | cons a as => simp at hcs
          · exfalso; simp at hcs
          · exact absurd h ruleMatch_nil
      | cons c2 cs2 =>
        by_cases hb2 : isWordChar c = false ∧ c2 = marker ∧ headIsWord cs2 = true
        · obtain ⟨hcw, hc2, hhw2⟩ := hb2
          have hcond2 : (!isWordChar c && (c2 == marker) && headIsWord cs2) = true := by
            rw [hcw, hhw2, beq_iff_eq.mpr hc2]; rfl
          rw [scanAux.eq_def]
          simp only [hcond, hcond2, Bool.false_eq_true, if_false, if_true,
            List.mem_cons]
          rw [ih false w]
          constructor
          · rintro (rfl | h)
            · right; left
              have hs := takeRun_spec cs2
              refine ⟨hcw, (takeRun cs2).2, ?_, takeRun_head hhw2, hs.2.1, hs.2.2⟩
              rw [hc2]
              exact congrArg (fun l => marker :: l) hs.1
            · exact Or.inr (Or.inr h)
          · rintro (⟨ha, hc, v, hcs, hw, hword, hv⟩ | ⟨_, v, hcs, hw, hword, hv⟩ | h)
            · exfalso
              apply hb1
              refine ⟨ha, hc, ?_⟩
              rw [hcs]
              cases w with
              | nil => exact absurd rfl hw
              | cons a as =>
                simp only [List.cons_append, headIsWord]
                exact hword a (List.mem_cons_self a as)
            · left
              injection hcs with _ hcs2
              rw [List.append_eq] at hcs2
              rw [hcs2, takeRun_unique w v hword hv]
            · exact Or.inr h
        · have hcond2 : (!isWordChar c && (c2 == marker) && headIsWord cs2) = false := by
            cases h3 : (!isWordChar c && (c2 == marker) && headIsWord cs2)
            · rfl
            · exfalso
              apply hb2
              simp only [Bool.and_eq_true, Bool.not_eq_true', beq_iff_eq,
                and_assoc] at h3
              exact h3
          rw [scanAux.eq_def]
          simp only [hcond, hcond2, Bool.false_eq_true, if_false]
          rw [ih false w]
          constructor
          · intro h; exact Or.inr (Or.inr h)
          · rintro (⟨ha, hc, v, hcs, hw, hword, hv⟩ | ⟨hcw, v, hcs, hw, hword, hv⟩ | h)
            · exfalso
              apply hb1
              refine ⟨ha, hc, ?_⟩
              rw [hcs]
              cases w with
              | nil => exact absurd rfl hw
              | cons a as =>
                simp only [List.cons_append, headIsWord]
                exact hword a (List.mem_cons_self a as)
            · exfalso
              apply hb2
              injection hcs with hc2m hcs2
              refine ⟨hcw, hc2m, ?_⟩
              rw [hcs2]
              cases w with
              | nil => exact absurd rfl hw
              | cons a as =>
                simp only [List.cons_append, headIsWord]
                exact hword a (List.mem_cons_self a as)
            · exact h

end SocialAnalytics

namespace SocialAnalytics

/-- C4: hashtag extraction realizes exactly the fixed lexical rule — a
group is emitted iff its marker is preceded by the start of the string or
a non-word character and followed by that group of one or more word
characters (maximal, as the regex group is greedy) — with groups
lower-cased, de-duplicated and emitted sorted; the membership rule is
stated for every input text, mention extraction obeys the identical rule
anchored on the at-sign, and the concrete examples of the spec evaluate
as claimed, including that a marker followed by no word character yields
no match. -/
theorem c4_hashtag_lexical_rule :
    (∀ t w : String, w ∈ extract_hashtags (some t) ↔
      ∃ g : List Char, ruleMatch '#' true t.data g ∧
        w = String.mk (g.map lowerChar)) ∧
    (∀ t w : String, w ∈ extract_mentions (some t) ↔
      ∃ g : List Char, ruleMatch '@' true t.data g ∧
        w = String.mk (g.map lowerChar)) ∧
    extract_hashtags (some "Check this #AI_tool out, #cool") = ["ai_tool", "cool"] ∧
    extract_hashtags (some "no-hash-here") = [] ∧
    extract_hashtags (some "a # b") = [] ∧
    extract_hashtags (some "#") = [] := by
  refine ⟨?_, ?_, by decide, by decide, by decide, by decide⟩
  · intro t w
    show w ∈ dedupSort ((scanAux '#' true t.data).map
      (fun g => String.mk (g.map lowerChar))) ↔ _
    rw [mem_dedupSort, List.mem_map]
    constructor
    · rintro ⟨g, hg, rfl⟩
      exact ⟨g, (scanAux_mem_iff (by decide) t.data true g).mp hg, rfl⟩
    · rintro ⟨g, hg, rfl⟩
      exact ⟨g, (scanAux_mem_iff (by decide) t.data true g).mpr hg, rfl⟩
  · intro t w
    show w ∈ dedupSort ((scanAux '@' true t.data).map
      (fun g => String.mk (g.map lowerChar))) ↔ _
    rw [mem_dedupSort, List.mem_map]
    constructor
    · rintro ⟨g, hg, rfl⟩
      exact ⟨g, (scanAux_mem_iff (by decide) t.data true g).mp hg, rfl⟩
    · rintro ⟨g, hg, rfl⟩
      exact ⟨g, (scanAux_mem_iff (by decide) t.data true g).mpr hg, rfl⟩

end SocialAnalytics

namespace SocialAnalytics

/-- Witness for C4 at a concrete text and group decomposition. -/
theorem c4_hashtag_lexical_rule_witness :
    ("a" : String) ∈ extract_hashtags (some "x #a") :=
  (c4_hashtag_lexical_rule.1 "x #a" "a").mpr
    ⟨['a'], ⟨['x', ' '], [], by decide, by decide, by decide, by decide,
      Or.inr ⟨['x'], ' ', rfl, by decide⟩⟩, by decide⟩

end SocialAnalytics
